import Mathlib

/-!
Verification development for the `iota` view of the range-v3 repository
(`include/range/v3/view/iota.hpp`).

The source is C++; the relevant value types are the built-in integral types.
We embed them shallowly: a C++ integral type is a width (in bits) together
with a signedness flag, and a value of that type is an `Int` lying in the
type's representable range.  Arithmetic follows the C++ rules the code
relies on:
  * integer promotion (operands of width < 32 are computed in `int`,
    modelled as the 32-bit signed type, the universal LP64/LLP64 layout);
  * conversion to an integral type is reduction modulo `2^width`, taken in
    the signed residue interval when the target is signed (two's
    complement, implementation-defined pre-C++20 but universal, and
    mandated by C++20);
  * overflow of a *signed* arithmetic operation is undefined behaviour,
    modelled by `Option.none`; unsigned arithmetic wraps modulo `2^width`.
The fixed-width `std::int_fastN_t` aliases are modelled at their minimal
(and on mainstream platforms actual) widths `N`.
-/

/-- A C++ integral type: bit width and signedness. -/
structure CInt where
  width : Nat
  signed : Bool
deriving DecidableEq, Repr

/-- Smallest representable value of the type. -/
def CInt.min (t : CInt) : Int :=
  if t.signed then -(2 ^ (t.width - 1)) else 0

/-- Largest representable value of the type. -/
def CInt.max (t : CInt) : Int :=
  if t.signed then 2 ^ (t.width - 1) - 1 else 2 ^ t.width - 1

/-- The value `v` is representable in type `t`. -/
abbrev CInt.inRange (t : CInt) (v : Int) : Prop :=
  t.min ≤ v ∧ v ≤ t.max

/-- C++ integral conversion of an arbitrary integer into type `t`:
reduction modulo `2^width`, shifted into the signed interval when `t` is
signed (two's-complement semantics). -/
def CInt.convert (t : CInt) (v : Int) : Int :=
  if t.signed ∧ 2 ^ (t.width - 1) ≤ v % 2 ^ t.width then v % 2 ^ t.width - 2 ^ t.width
  else v % 2 ^ t.width

/-- The width of `int` in the model (32 bits, as on all LP64/LLP64 targets). -/
def intWidth : Nat := 32

/-- C++ integer promotion: integral types narrower than `int` are promoted
to `int` (which can represent all their values); wider types are unchanged. -/
def promote (t : CInt) : CInt :=
  if t.width < intWidth then ⟨intWidth, true⟩ else t

/-- C++ usual arithmetic conversions for two (already promoted) integral
operand types: same signedness takes the wider type; with mixed signedness
the unsigned type wins at greater-or-equal width, otherwise the strictly
wider signed type (which represents every value of the unsigned one). -/
def usualArith (a b : CInt) : CInt :=
  if a.signed = b.signed then (if b.width ≤ a.width then a else b)
  else
    let u := if a.signed then b else a
    let s := if a.signed then a else b
    if s.width ≤ u.width then u else s

/-- `std::make_signed`: same width, signed. -/
def make_signed (t : CInt) : CInt := ⟨t.width, true⟩

/-- The difference type computed by `detail::iota_difference_` for an
integral `RandomAccessIota` value type (iota.hpp lines 113–134):
`difference_t` is `decltype(declval<Val>() - declval<Val>())`, i.e. the
promoted type of `Val` (both operands have the same type); if that differs
from `Val` the result is `make_signed<difference_t>`, otherwise the cascade
on `bits = sizeof(difference_t) * CHAR_BIT` picks
`int_fast8_t`/`int_fast16_t`/`int_fast32_t`/`int_fast64_t`. -/
def iota_difference (t : CInt) : CInt :=
  let difference_t := promote t
  let bits := difference_t.width
  if difference_t ≠ t then make_signed difference_t
  else if bits < 8 then ⟨8, true⟩
  else if bits < 16 then ⟨16, true⟩
  else if bits < 32 then ⟨32, true⟩
  else ⟨64, true⟩

/-- Spec-side formulation for claim C6: the smallest of the {8,16,32,64}-bit
signed fast integer widths strictly exceeding `bits`, defaulting to 64 when
no smaller one qualifies. -/
def distSpecWidth (bits : Nat) : Nat :=
  ((([8, 16, 32, 64] : List Nat).filter (fun n => decide (bits < n))).head?).getD 64

/-- `detail::iota_minus` for a non-integral random-access value type
(iota.hpp lines 144–148): plain subtraction at its natural result type. -/
def iota_minus_nonintegral {α β : Type} (sub : α → α → β) (v0 v1 : α) : β :=
  sub v0 v1

/-- `detail::iota_minus` for an integral value type `t`
(iota.hpp lines 150–162).  Signed overload: `(D) v0 - (D) v1`, i.e. both
operands converted to the difference type `D`, then subtracted in `D`
(signed overflow there is UB, hence `none`).  Unsigned overload:
`(D)(v0 - v1)`, i.e. the subtraction happens at the *promoted* type of `t`
first — in `int` arithmetic when `t` is narrower than `int` (UB on
overflow, which in-range operands cannot produce), else modulo `2^width` —
and the result is then converted to `D`. -/
def iota_minus (t : CInt) (v0 v1 : Int) : Option Int :=
  let D := iota_difference t
  if t.signed then
    let r := D.convert v0 - D.convert v1
    if D.inRange r then some r else none
  else
    let p := promote t
    let r := p.convert v0 - p.convert v1
    if p.signed then
      if p.inRange r then some (D.convert r) else none
    else
      some (D.convert (r % 2 ^ p.width))

/-- C++ `++value_` on a value of type `t`: the sum `value_ + 1` is computed
at the promoted type (UB on signed overflow there), then converted back
to `t`. -/
def cppInc (t : CInt) (v : Int) : Option Int :=
  let p := promote t
  let r := p.convert v + 1
  if p.signed then
    if p.inRange r then some (t.convert r) else none
  else
    some (t.convert (r % 2 ^ p.width))

/-- C++ `value_ += n` where `value_ : t` and `n : iota_difference t`
(the body of `iota_view::advance` / the mutation step of
`closed_iota_view::advance`): both operands are converted to the common
type given by the usual arithmetic conversions, added there (UB on signed
overflow, wrapping when the common type is unsigned), and the sum is
converted back to `t`. -/
def iota_advance (t : CInt) (v n : Int) : Option Int :=
  let D := iota_difference t
  let C := usualArith (promote t) D
  let r := C.convert v + C.convert n
  if C.signed then
    if C.inRange r then some (t.convert r) else none
  else
    some (t.convert (r % 2 ^ C.width))

/-- The widths of the ordinary C++ fixed-width integral types. -/
abbrev StdWidth (t : CInt) : Prop :=
  t.width = 8 ∨ t.width = 16 ∨ t.width = 32 ∨ t.width = 64

/-- The unbounded generator `iota_view<Val>` (iota.hpp lines 168–216),
instantiated at an integral value type: the single field `value_`. -/
structure iota_view where
  value_ : Int
deriving DecidableEq, Repr

/-- `iota_view::current`: returns `value_`. -/
def iota_view.current (s : iota_view) : Int :=
  s.value_

/-- `iota_view::next`: `++value_`. -/
def iota_view.next (t : CInt) (s : iota_view) : Option iota_view :=
  (cppInc t s.value_).map iota_view.mk

/-- `iota_view::done`: constantly `false`. -/
def iota_view.done (_s : iota_view) : Bool :=
  false

/-- `iota_view::advance`: `value_ += n`. -/
def iota_view.advance (t : CInt) (s : iota_view) (n : Int) : Option iota_view :=
  (iota_advance t s.value_ n).map iota_view.mk

/-- `iota_view::distance_to`: `detail::iota_minus(that.value_, value_)`. -/
def iota_view.distance_to (t : CInt) (s that : iota_view) : Option Int :=
  iota_minus t that.value_ s.value_

/-- `k` applications of `iota_view::next`. -/
def iotaIter (t : CInt) : Nat → iota_view → Option iota_view
  | 0, s => some s
  | k + 1, s => (iota_view.next t s).bind (iotaIter t k)

/-- The closed generator `closed_iota_view<Val, Val2>`
(iota.hpp lines 219–273): fields `from_ : Val`, `to_ : Val2`,
`done_ : bool` (initialised `false`). -/
structure closed_iota_view (α β : Type) where
  from_ : α
  to_ : β
  done_ : Bool
deriving DecidableEq, Repr

/-- `closed_iota_view::current`: returns `from_`. -/
def closed_iota_view.current {α β : Type} (s : closed_iota_view α β) : α :=
  s.from_

/-- `closed_iota_view::done`: returns `done_`. -/
def closed_iota_view.done {α β : Type} (s : closed_iota_view α β) : Bool :=
  s.done_

/-- `closed_iota_view::next`: `if (from_ == to_) done_ = true; else ++from_;`,
abstracted over the value type's equality (`eqb`) and increment (`inc`,
which may be fallible for machine integers). -/
def closed_iota_view.next {α β : Type} (eqb : α → β → Bool) (inc : α → Option α)
    (s : closed_iota_view α β) : Option (closed_iota_view α β) :=
  if eqb s.from_ s.to_ then some { s with done_ := true }
  else (inc s.from_).map fun v => { s with from_ := v }

/-- `closed_iota_view::advance` on an integral value type
(iota.hpp lines 257–262): `RANGES_ASSERT(detail::iota_minus(to_, from_) >= n);
from_ += n;`.  A failed assertion is fatal (`none`), and undefined behaviour
in either the distance computation or the compound assignment is `none` as
well. -/
def closed_iota_view.advance (t : CInt) (s : closed_iota_view Int Int) (n : Int) :
    Option (closed_iota_view Int Int) :=
  match iota_minus t s.to_ s.from_ with
  | none => none
  | some d =>
    if n ≤ d then (iota_advance t s.from_ n).map fun v => { s with from_ := v }
    else none

/-- Elements yielded by consuming a closed generator with the facade
protocol — while not `done`: yield `current`, then `next` — for at most
`fuel` rounds (the loop need not terminate for arbitrary value types). -/
def closedRun {α β : Type} (eqb : α → β → Bool) (inc : α → Option α) :
    Nat → closed_iota_view α β → List α
  | 0, _ => []
  | fuel + 1, s =>
    if s.done_ then []
    else
      s.from_ ::
        match closed_iota_view.next eqb inc s with
        | none => []
        | some s' => closedRun eqb inc fuel s'

/-- First `n` elements of the unbounded generator started at `v` (yield,
then increment between consecutive yields). -/
def takeGo (t : CInt) : Nat → Int → Option (List Int)
  | 0, _ => some []
  | 1, v => some [v]
  | n + 2, v => (cppInc t v).bind fun v' => (takeGo t (n + 1) v').map fun l => v :: l

/-- Modelled from the spec: the bounded-prefix adapter (`take_view`, whose
code is not under `src/`) "truncates an unbounded sequence to a fixed
element count"; applied to `iota_view` started at `v` it yields the first
`count` elements of that generator (none for a non-positive count). -/
def takeList (t : CInt) (count : Int) (v : Int) : Option (List Int) :=
  takeGo t count.toNat v

/-- The random-access bounded path of the factory `view::iota_fn`
(iota.hpp lines 280–285 and 299–308, taken whenever `Val` and `Val2` are
the same integral type): builds
`take_view{iota_view{from}, iota_minus(to, from) + 1}`.  The `+ 1` is
evaluated in the difference type (UB if it overflows there). -/
def iota_fn_bounded (t : CInt) (f g : Int) : Option (List Int) :=
  match iota_minus t g f with
  | none => none
  | some d =>
    if (iota_difference t).inRange (d + 1) then takeList t (d + 1) f
    else none

/-- The arithmetic-progression list `f, f+1, ..., g` (length `g - f + 1`). -/
def boundedList (f g : Int) : List Int :=
  (List.range (g - f + 1).toNat).map fun k : Nat => f + (k : Int)


theorem CInt.two_pow_split {t : CInt} (hw : 1 ≤ t.width) :
    (2 : Int) ^ t.width = 2 ^ (t.width - 1) * 2 := by
  conv_lhs => rw [show t.width = (t.width - 1) + 1 from (Nat.succ_pred_eq_of_pos hw).symm]
  rw [pow_succ]

theorem CInt.convert_self {t : CInt} {v : Int} (hw : 1 ≤ t.width)
    (h : t.inRange v) : t.convert v = v := by
  obtain ⟨h1, h2⟩ := h
  have hsplit := CInt.two_pow_split hw
  have hpos : (0 : Int) < 2 ^ t.width := by positivity
  have hhpos : (0 : Int) < 2 ^ (t.width - 1) := by positivity
  unfold CInt.convert
  simp only [CInt.min, CInt.max] at h1 h2
  by_cases hs : t.signed
  · simp only [hs, if_true, true_and] at *
    by_cases hv : 0 ≤ v
    · have hm : v % (2 ^ t.width) = v :=
        Int.emod_eq_of_lt hv (by omega)
      rw [hm]
      have : ¬ (2 : Int) ^ (t.width - 1) ≤ v := by omega
      simp [this]
    · have hshift : v % (2 ^ t.width) = (v + 2 ^ t.width) % (2 ^ t.width) := by
        rw [show v + 2 ^ t.width = v + 2 ^ t.width * 1 by ring, Int.add_mul_emod_self_left]
      have hm : (v + 2 ^ t.width) % (2 ^ t.width) = v + 2 ^ t.width :=
        Int.emod_eq_of_lt (by omega) (by omega)
      rw [hshift, hm]
      have : (2 : Int) ^ (t.width - 1) ≤ v + 2 ^ t.width := by omega
      simp only [this, and_true, if_true]
      omega
  · simp only [hs, if_false, false_and] at *
    simp only [Bool.false_eq_true, false_and, if_false]
    exact Int.emod_eq_of_lt h1 (by omega)

theorem CInt.convert_unsigned {t : CInt} (hs : t.signed = false) (v : Int) :
    t.convert v = v % 2 ^ t.width := by
  unfold CInt.convert
  simp [hs]

theorem CInt.convert_inRange {t : CInt} (hw : 1 ≤ t.width) (v : Int) :
    t.inRange (t.convert v) := by
  have hsplit := CInt.two_pow_split hw
  have hpos : (0 : Int) < 2 ^ t.width := by positivity
  have hhpos : (0 : Int) < 2 ^ (t.width - 1) := by positivity
  have hlo : 0 ≤ v % (2 ^ t.width) := Int.emod_nonneg v (by omega)
  have hhi : v % (2 ^ t.width) < 2 ^ t.width := Int.emod_lt_of_pos v hpos
  unfold CInt.convert
  constructor <;> simp only [CInt.min, CInt.max] <;> split_ifs with h h2 <;>
    simp_all <;> omega

theorem CInt.convert_emod_eq (t : CInt) (v : Int) :
    (t.convert v) % 2 ^ t.width = v % 2 ^ t.width := by
  unfold CInt.convert
  split_ifs with h
  · rw [show v % 2 ^ t.width - 2 ^ t.width
        = v % 2 ^ t.width + 2 ^ t.width * (-1) by ring,
      Int.add_mul_emod_self_left, Int.emod_emod_of_dvd _ dvd_rfl]
  · rw [Int.emod_emod_of_dvd _ dvd_rfl]

theorem promote_eq_of_narrow {t : CInt} (h : t.width < 32) :
    promote t = ⟨32, true⟩ := by
  unfold promote intWidth
  simp [h]

theorem promote_eq_of_wide {t : CInt} (h : 32 ≤ t.width) :
    promote t = t := by
  unfold promote intWidth
  simp [Nat.not_lt_of_le h]

theorem narrow_range_sub {t : CInt} {v0 v1 : Int} (hw : 1 ≤ t.width)
    (hnarrow : t.width < 32) (h0 : t.inRange v0) (h1 : t.inRange v1) :
    CInt.inRange ⟨32, true⟩ (v0 - v1) ∧
      CInt.inRange ⟨32, true⟩ v0 ∧ CInt.inRange ⟨32, true⟩ v1 := by
  have hb : (2 : Int) ^ t.width ≤ 2 ^ 31 :=
    pow_le_pow_right₀ (by norm_num) (by omega)
  have hb' : (2 : Int) ^ (t.width - 1) ≤ 2 ^ 30 :=
    pow_le_pow_right₀ (by norm_num) (by omega)
  obtain ⟨h0a, h0b⟩ := h0
  obtain ⟨h1a, h1b⟩ := h1
  simp only [CInt.min, CInt.max] at *
  split_ifs at * <;>
    refine ⟨⟨?_, ?_⟩, ⟨?_, ?_⟩, ⟨?_, ?_⟩⟩ <;> simp only [CInt.min, CInt.max] <;>
    norm_num <;> omega

theorem inRange32_of_narrow {t : CInt} (hnarrow : t.width < 32) {v : Int}
    (h : t.inRange v) : CInt.inRange ⟨32, true⟩ v := by
  have hb : (2 : Int) ^ t.width ≤ 2 ^ 31 :=
    pow_le_pow_right₀ (by norm_num) (by omega)
  have hb' : (2 : Int) ^ (t.width - 1) ≤ 2 ^ 30 :=
    pow_le_pow_right₀ (by norm_num) (by omega)
  obtain ⟨ha, ha2⟩ := h
  simp only [CInt.min, CInt.max] at ha ha2
  constructor <;>
    · simp only [CInt.min, CInt.max]
      split_ifs at ha ha2 <;> norm_num <;> omega

theorem cppInc_exact {t : CInt} {v : Int} (hw : 1 ≤ t.width)
    (h : t.inRange v) (hlt : v < t.max) : cppInc t v = some (v + 1) := by
  have hv1 : t.inRange (v + 1) := ⟨by have := h.1; omega, by omega⟩
  unfold cppInc
  by_cases hn : t.width < 32
  · rw [promote_eq_of_narrow hn]
    have hc : CInt.convert ⟨32, true⟩ v = v :=
      CInt.convert_self (by norm_num) (inRange32_of_narrow hn h)
    have hr : CInt.inRange ⟨32, true⟩ (v + 1) := inRange32_of_narrow hn hv1
    simp only [hc]
    simp [hr, CInt.convert_self hw hv1]
  · rw [promote_eq_of_wide (by omega)]
    have hc : t.convert v = v := CInt.convert_self hw h
    by_cases hs : t.signed
    · simp only [hc, hs, if_true]
      simp [hv1, CInt.convert_self hw hv1]
    · simp only [Bool.not_eq_true] at hs
      have hmod : (v + 1) % 2 ^ t.width = v + 1 := by
        have h1 := h.1
        have h2 := hv1.2
        simp only [CInt.min, CInt.max, hs] at h1 h2
        simp only [Bool.false_eq_true, if_false] at h1 h2
        exact Int.emod_eq_of_lt (by omega) (by omega)
      simp [hs, hc, hmod, CInt.convert_self hw hv1]

theorem iota_minus_exact {t : CInt} {v0 v1 : Int} (hstd : StdWidth t)
    (h0 : t.inRange v0) (h1 : t.inRange v1) (hle : v1 ≤ v0)
    (hD : v0 - v1 ≤ (iota_difference t).max) :
    iota_minus t v0 v1 = some (v0 - v1) := by
  obtain ⟨w, s⟩ := t
  obtain ⟨ha, hb⟩ := h0
  obtain ⟨hc, hd⟩ := h1
  rcases hstd with hw | hw | hw | hw <;> subst hw <;> cases s <;>
    norm_num [iota_minus, iota_difference, promote, intWidth, make_signed,
      CInt.inRange, CInt.convert, CInt.min, CInt.max] at * <;>
    split_ifs <;> omega

theorem range_map_shift (v : Int) (n : Nat) :
    (List.range (n + 1)).map (fun k : Nat => v + k)
      = v :: (List.range n).map (fun k : Nat => (v + 1) + k) := by
  rw [List.range_succ_eq_map]
  simp only [List.map_cons, List.map_map, Function.comp, Nat.cast_zero, add_zero,
    List.cons.injEq, true_and]
  apply List.map_congr_left
  intro k _
  simp only [Function.comp]
  push_cast
  ring

theorem range_map_getLast (v : Int) (m : Nat) :
    ((List.range (m + 1)).map fun k : Nat => v + k).getLast? = some (v + m) := by
  rw [List.range_succ, List.map_append]
  simp

theorem takeGo_eq {t : CInt} (hw : 1 ≤ t.width) :
    ∀ (n : Nat) (v : Int), t.inRange v → v + n ≤ t.max + 1 →
      takeGo t n v = some ((List.range n).map fun k : Nat => v + k)
  | 0, v, _, _ => by simp [takeGo]
  | 1, v, _, _ => by simp [takeGo, List.range_succ]
  | n + 2, v, hr, hb => by
    have hlt : v < t.max := by push_cast at hb; omega
    have hinc := cppInc_exact hw hr hlt
    have hr' : t.inRange (v + 1) := ⟨by have := hr.1; omega, by omega⟩
    have hb' : (v + 1) + ((n + 1 : Nat) : Int) ≤ t.max + 1 := by
      push_cast at hb ⊢; omega
    have ih := takeGo_eq hw (n + 1) (v + 1) hr' hb'
    rw [show n + 2 = (n + 1) + 1 from rfl, range_map_shift]
    simp [takeGo, hinc, ih]

theorem iota_difference_cases {t : CInt} (hstd : StdWidth t) :
    iota_difference t = ⟨32, true⟩ ∨ iota_difference t = ⟨64, true⟩ := by
  obtain ⟨w, s⟩ := t
  rcases hstd with hw | hw | hw | hw <;> subst hw <;> cases s <;>
    first
      | exact Or.inl (by decide)
      | exact Or.inr (by decide)

theorem iota_difference_max_pos {t : CInt} (hstd : StdWidth t) :
    (2 : Int) ^ 31 - 1 ≤ (iota_difference t).max := by
  rcases iota_difference_cases hstd with h | h <;> rw [h] <;> decide

theorem iota_difference_min_neg {t : CInt} (hstd : StdWidth t) :
    (iota_difference t).min ≤ -(2 ^ 31) := by
  rcases iota_difference_cases hstd with h | h <;> rw [h] <;> decide

theorem iota_fn_bounded_eq (t : CInt) (f g : Int) (hstd : StdWidth t)
    (h0 : t.inRange f) (h1 : t.inRange g) (hle : f ≤ g)
    (hrep : g - f + 1 ≤ (iota_difference t).max) :
    iota_minus t g f = some (g - f) ∧
    iota_fn_bounded t f g = some (boundedList f g) := by
  have hw : 1 ≤ t.width := by rcases hstd with h | h | h | h <;> omega
  have hminus : iota_minus t g f = some (g - f) :=
    iota_minus_exact hstd h1 h0 hle (by omega)
  have hmin := iota_difference_min_neg hstd
  have hcnt : (iota_difference t).inRange (g - f + 1) := ⟨by omega, hrep⟩
  have hn : ((g - f + 1).toNat : Int) = g - f + 1 := Int.toNat_of_nonneg (by omega)
  have htake : takeGo t (g - f + 1).toNat f
      = some ((List.range (g - f + 1).toNat).map fun k : Nat => f + k) :=
    takeGo_eq hw _ f h0 (by rw [hn]; have := h1.2; omega)
  refine ⟨hminus, ?_⟩
  unfold iota_fn_bounded takeList
  rw [hminus]
  dsimp only
  rw [if_pos hcnt, htake]
  rfl

/-- Claim C1 (amended with the representability proviso): for `start ≤ end`
of the same integral type with `end - start + 1` representable in the
resolved difference type (automatic below width 64), the factory's
random-access path computes the count `iota_minus(to, from) + 1
= end - start + 1`, hands it to the bounded-prefix adapter, and the
resulting sequence has exactly `end - start + 1` elements, the last
being `end`. -/
theorem iota_bounded_count (t : CInt) (f g : Int) (hstd : StdWidth t)
    (h0 : t.inRange f) (h1 : t.inRange g) (hle : f ≤ g)
    (hrep : g - f + 1 ≤ (iota_difference t).max) :
    iota_minus t g f = some (g - f) ∧
    iota_fn_bounded t f g = some (boundedList f g) ∧
    ((boundedList f g).length : Int) = g - f + 1 ∧
    (boundedList f g).getLast? = some g := by
  obtain ⟨hminus, hrun⟩ := iota_fn_bounded_eq t f g hstd h0 h1 hle hrep
  have hn : ((g - f + 1).toNat : Int) = g - f + 1 := Int.toNat_of_nonneg (by omega)
  refine ⟨hminus, hrun, ?_, ?_⟩
  · simp only [boundedList, List.length_map, List.length_range]
    exact hn
  · obtain ⟨m, hm⟩ : ∃ m, (g - f + 1).toNat = m + 1 :=
      ⟨(g - f + 1).toNat - 1, by omega⟩
    unfold boundedList
    rw [hm, range_map_getLast]
    have hmg : f + (m : Int) = g := by omega
    rw [hmg]

/-- Witness for claim C1 at `int`, `start = 3`, `end = 7` (the spec's own
example `ints(3, 7)` which must produce `[3,4,5,6,7]`). -/
theorem iota_bounded_count_wit :
    iota_minus ⟨32, true⟩ 7 3 = some (7 - 3) ∧
    iota_fn_bounded ⟨32, true⟩ 3 7 = some (boundedList 3 7) ∧
    ((boundedList 3 7).length : Int) = 7 - 3 + 1 ∧
    (boundedList 3 7).getLast? = some 7 :=
  iota_bounded_count ⟨32, true⟩ 3 7 (by decide) (by decide) (by decide)
    (by decide) (by decide)

/-- Counterexample for claim C1 as stated: for the 64-bit unsigned type
with `start = 0 ≤ end = 2^63`, the code's count `iota_minus(to, from) + 1`
is `-(2^63) + 1`, not `end - start + 1 = 2^63 + 1` (the unsigned
difference `2^63` wraps to `-(2^63)` when converted to the 64-bit signed
difference type), and the resulting sequence is empty rather than of
length `2^63 + 1`. -/
theorem iota_bounded_count_cex :
    iota_minus ⟨64, false⟩ (2 ^ 63) 0 = some (-(2 ^ 63)) ∧
    ((-(2 ^ 63) : Int) + 1 ≠ (2 ^ 63 : Int) - 0 + 1) ∧
    iota_fn_bounded ⟨64, false⟩ 0 (2 ^ 63) = some [] := by
  refine ⟨by decide, by decide, ?_⟩
  have h : iota_minus ⟨64, false⟩ (2 ^ 63) 0 = some (-(2 ^ 63)) := by decide
  unfold iota_fn_bounded takeList
  rw [h]
  norm_num
  decide

/-- Claim C3: for `start == end` the factory's bounded path yields exactly
one element, `start`; and the closed generator is never empty — it always
yields its current value at least once (termination is only checked after
yielding), so with `from == to` it yields exactly `[from]`. -/
theorem iota_singleton (t : CInt) (a : Int) {α β : Type}
    (eqb : α → β → Bool) (inc : α → Option α) (x : α) (y : β)
    (s : closed_iota_view α β) (fuel fuel2 : Nat)
    (hstd : StdWidth t) (h : t.inRange a)
    (hdone : s.done_ = false) (hf2 : 1 ≤ fuel2)
    (heq : eqb x y = true) (hf : 2 ≤ fuel) :
    iota_fn_bounded t a a = some [a] ∧
    1 ≤ (closedRun eqb inc fuel2 s).length ∧
    closedRun eqb inc fuel ⟨x, y, false⟩ = [x] := by
  refine ⟨?_, ?_, ?_⟩
  · have hmax := iota_difference_max_pos hstd
    have hc := (iota_fn_bounded_eq t a a hstd h h le_rfl (by omega)).2
    rw [hc]
    congr 1
    simp [boundedList, List.range_succ]
  · obtain ⟨m, rfl⟩ : ∃ m, fuel2 = m + 1 := ⟨fuel2 - 1, by omega⟩
    simp [closedRun, hdone]
  · obtain ⟨m, rfl⟩ : ∃ m, fuel = m + 2 := ⟨fuel - 2, by omega⟩
    simp [closedRun, closed_iota_view.next, heq]

/-- Witness for claim C3 at the 8-bit unsigned type with
`start = end = 250`. -/
theorem iota_singleton_wit :
    iota_fn_bounded ⟨8, false⟩ 250 250 = some [250] ∧
    1 ≤ (closedRun (fun a b : Int => decide (a = b)) (cppInc ⟨8, false⟩) 1
          ⟨(250 : Int), (250 : Int), false⟩).length ∧
    closedRun (fun a b : Int => decide (a = b)) (cppInc ⟨8, false⟩) 2
        ⟨(250 : Int), (250 : Int), false⟩ = [250] :=
  iota_singleton ⟨8, false⟩ 250 (fun a b : Int => decide (a = b))
    (cppInc ⟨8, false⟩) 250 250 ⟨250, 250, false⟩ 2 1 (by decide) (by decide)
    (by decide) (by decide) (by decide) (by decide)

/-- Claim C2: the closed generator's advance policy — when `from == to` it
only sets the finished flag (leaving `from` untouched, so the bound is
yielded once and never advanced past), otherwise it increments `from` and
leaves the flag unchanged; a set flag is never cleared, so Finished is
terminal and sticky. -/
theorem closed_next_policy {α β : Type} (eqb : α → β → Bool) (inc : α → Option α)
    (s s' : closed_iota_view α β)
    (h : closed_iota_view.next eqb inc s = some s') :
    s'.to_ = s.to_ ∧
    s'.done_ = (eqb s.from_ s.to_ || s.done_) ∧
    (if eqb s.from_ s.to_ then s'.from_ = s.from_
     else inc s.from_ = some s'.from_) := by
  unfold closed_iota_view.next at h
  by_cases hc : eqb s.from_ s.to_
  · rw [if_pos hc] at h
    simp only [Option.some.injEq] at h
    subst h
    simp [hc]
  · rw [if_neg hc] at h
    simp only [Bool.not_eq_true] at hc
    rcases hi : inc s.from_ with _ | v
    · rw [hi] at h
      simp at h
    · rw [hi] at h
      simp only [Option.map_some', Option.some.injEq] at h
      subst h
      simp [hc, hi]

/-- Witness for claim C2 at `int` with `from = to = 5`, Active: advance
sets the flag, keeps `from`. -/
theorem closed_next_policy_wit :
    ((⟨5, 5, true⟩ : closed_iota_view Int Int).to_
        = (⟨5, 5, false⟩ : closed_iota_view Int Int).to_) ∧
    ((⟨5, 5, true⟩ : closed_iota_view Int Int).done_
        = ((fun a b : Int => decide (a = b)) (5 : Int) (5 : Int)
            || (⟨5, 5, false⟩ : closed_iota_view Int Int).done_)) ∧
    (if (fun a b : Int => decide (a = b)) (5 : Int) (5 : Int) then
        (⟨5, 5, true⟩ : closed_iota_view Int Int).from_
          = (⟨5, 5, false⟩ : closed_iota_view Int Int).from_
     else cppInc ⟨32, true⟩ (⟨5, 5, false⟩ : closed_iota_view Int Int).from_
          = some (⟨5, 5, true⟩ : closed_iota_view Int Int).from_) :=
  closed_next_policy (fun a b : Int => decide (a = b)) (cppInc ⟨32, true⟩)
    ⟨5, 5, false⟩ ⟨5, 5, true⟩ (by decide)

/-- Claim C10: a successful `advance` (seek) on the closed generator
changes only `from_` — the finished flag and the bound are untouched — so
after seeking exactly onto the bound the generator is still in its
previous (Active) state, and one further plain advance is what sets the
flag. -/
theorem closed_advance_frame (t : CInt) (s s' : closed_iota_view Int Int) (n : Int)
    (h : closed_iota_view.advance t s n = some s') :
    s'.done_ = s.done_ ∧ s'.to_ = s.to_ ∧
    (s'.from_ = s'.to_ →
      closed_iota_view.next (fun a b : Int => decide (a = b)) (cppInc t) s'
        = some ⟨s'.from_, s'.to_, true⟩) := by
  unfold closed_iota_view.advance at h
  rcases hm : iota_minus t s.to_ s.from_ with _ | d <;> rw [hm] at h
  · simp at h
  · dsimp only at h
    by_cases hn : n ≤ d
    · rw [if_pos hn] at h
      rcases ha : iota_advance t s.from_ n with _ | v <;> rw [ha] at h
      · simp at h
      · simp only [Option.map_some', Option.some.injEq] at h
        subst h
        refine ⟨rfl, rfl, fun hb => ?_⟩
        dsimp only at hb
        unfold closed_iota_view.next
        simp [hb]
    · rw [if_neg hn] at h
      simp at h

/-- Witness for claim C10: `int` closed generator `[0,5]`, seek by 5 lands
exactly on the bound and leaves the generator Active. -/
theorem closed_advance_frame_wit :
    ((⟨5, 5, false⟩ : closed_iota_view Int Int).done_
        = (⟨0, 5, false⟩ : closed_iota_view Int Int).done_) ∧
    ((⟨5, 5, false⟩ : closed_iota_view Int Int).to_
        = (⟨0, 5, false⟩ : closed_iota_view Int Int).to_) ∧
    ((⟨5, 5, false⟩ : closed_iota_view Int Int).from_
        = (⟨5, 5, false⟩ : closed_iota_view Int Int).to_ →
      closed_iota_view.next (fun a b : Int => decide (a = b)) (cppInc ⟨32, true⟩)
          ⟨5, 5, false⟩
        = some ⟨(⟨5, 5, false⟩ : closed_iota_view Int Int).from_,
                (⟨5, 5, false⟩ : closed_iota_view Int Int).to_, true⟩) :=
  closed_advance_frame ⟨32, true⟩ ⟨0, 5, false⟩ ⟨5, 5, false⟩ 5 (by decide)

/-- Claim C4: `advance` (seek) on the closed generator checks the
precondition `iota_minus(to_, from_) >= n`; when it is violated the
assertion fires fatally (no successor state), and under the precondition
the assertion branch is unreachable and the operation is exactly
`from_ += n`. -/
theorem closed_advance_assert (t : CInt) (s : closed_iota_view Int Int) (n d : Int)
    (hd : iota_minus t s.to_ s.from_ = some d) :
    (d < n → closed_iota_view.advance t s n = none) ∧
    (n ≤ d → closed_iota_view.advance t s n
        = (iota_advance t s.from_ n).map fun v => ⟨v, s.to_, s.done_⟩) := by
  unfold closed_iota_view.advance
  rw [hd]
  dsimp only
  constructor
  · intro h1
    rw [if_neg (by omega)]
  · intro h2
    rw [if_pos h2]

/-- Witness for claim C4: the spec's own example — the closed generator
over `[0,5]` asked to seek 10 hits the fatal assertion. -/
theorem closed_advance_assert_wit :
    ((5 : Int) < 10 → closed_iota_view.advance ⟨32, true⟩ ⟨0, 5, false⟩ 10 = none) ∧
    ((10 : Int) ≤ 5 → closed_iota_view.advance ⟨32, true⟩ ⟨0, 5, false⟩ 10
        = (iota_advance ⟨32, true⟩ (⟨0, 5, false⟩ : closed_iota_view Int Int).from_ 10).map
            fun v => ⟨v, (⟨0, 5, false⟩ : closed_iota_view Int Int).to_,
                      (⟨0, 5, false⟩ : closed_iota_view Int Int).done_⟩) :=
  closed_advance_assert ⟨32, true⟩ ⟨0, 5, false⟩ 10 5 (by decide)

theorem iotaIter_exact {t : CInt} (hw : 1 ≤ t.width) :
    ∀ (k : Nat) (v : Int), t.inRange v → v + k ≤ t.max →
      iotaIter t k ⟨v⟩ = some ⟨v + k⟩
  | 0, v, _, _ => by simp [iotaIter]
  | k + 1, v, hr, hb => by
    have hlt : v < t.max := by push_cast at hb; omega
    have hnext : iota_view.next t ⟨v⟩ = some ⟨v + 1⟩ := by
      unfold iota_view.next
      rw [cppInc_exact hw hr hlt]
      rfl
    have ih := iotaIter_exact hw k (v + 1) ⟨by have := hr.1; omega, by omega⟩
      (by push_cast at hb ⊢; omega)
    unfold iotaIter
    rw [hnext]
    simp only [Option.some_bind]
    rw [ih]
    congr 1
    push_cast
    ring_nf

/-- Claim C9: the unbounded generator's termination check is constantly
`false` (it never reaches a terminal state), and for any horizon `K` kept
within the value type's range, the `k`-th state (for every `k ≤ K`) holds
`start` incremented `k` times, i.e. the values run
`start, start+1, start+2, ...`. -/
theorem iota_unbounded_spec (t : CInt) (s : iota_view) (K k : Nat)
    (hstd : StdWidth t) (h : t.inRange s.value_) (hk : k ≤ K)
    (hK : s.value_ + K ≤ t.max) :
    iota_view.done s = false ∧
    iotaIter t k s = some ⟨s.value_ + k⟩ := by
  have hw : 1 ≤ t.width := by rcases hstd with h' | h' | h' | h' <;> omega
  refine ⟨rfl, ?_⟩
  obtain ⟨v⟩ := s
  dsimp only at h hK ⊢
  exact iotaIter_exact hw k v h (by omega)

/-- Witness for claim C9: the spec's example — `ints(3)` advanced 3 times
yields `3,4,5,6`, i.e. the third successor state holds 6, and `done` is
false. -/
theorem iota_unbounded_spec_wit :
    iota_view.done ⟨(3 : Int)⟩ = false ∧
    iotaIter ⟨32, true⟩ 3 ⟨(3 : Int)⟩ = some ⟨(⟨(3 : Int)⟩ : iota_view).value_ + (3 : Nat)⟩ :=
  iota_unbounded_spec ⟨32, true⟩ ⟨3⟩ 3 3 (by decide) (by decide) (by decide)
    (by decide)

theorem iota_difference_narrow {t : CInt} (hn : t.width < 32) :
    iota_difference t = ⟨32, true⟩ := by
  have hne : ¬ ((⟨32, true⟩ : CInt) = t) := by
    intro he
    rw [← he] at hn
    exact absurd hn (by norm_num)
  simp [iota_difference, promote_eq_of_narrow hn, make_signed, hne]

theorem iota_minus_signed_exact {t : CInt} {v0 v1 : Int} (hstd : StdWidth t)
    (hs : t.signed = true) (h0 : t.inRange v0) (h1 : t.inRange v1)
    (hD : (iota_difference t).inRange (v0 - v1)) :
    iota_minus t v0 v1 = some (v0 - v1) := by
  obtain ⟨w, s⟩ := t
  subst hs
  obtain ⟨ha, hb⟩ := h0
  obtain ⟨hc, hd⟩ := h1
  rcases hstd with hw | hw | hw | hw <;> subst hw <;>
    norm_num [iota_minus, iota_difference, promote, intWidth, make_signed,
      CInt.inRange, CInt.convert, CInt.min, CInt.max] at * <;>
    split_ifs <;>
    first
      | omega
      | (exfalso; omega)

theorem iota_minus_unsigned_wide {t : CInt} {v0 v1 : Int}
    (hs : t.signed = false) (h32 : 32 ≤ t.width)
    (h0 : t.inRange v0) (h1 : t.inRange v1) :
    iota_minus t v0 v1
      = some ((iota_difference t).convert ((v0 - v1) % 2 ^ t.width)) := by
  have hw : 1 ≤ t.width := by omega
  simp only [iota_minus, hs, Bool.false_eq_true, if_false]
  rw [promote_eq_of_wide h32]
  simp only [hs, Bool.false_eq_true, if_false]
  rw [CInt.convert_self hw h0, CInt.convert_self hw h1]

theorem iota_minus_unsigned_narrow {t : CInt} {v0 v1 : Int}
    (hs : t.signed = false) (hw : 1 ≤ t.width) (hn : t.width < 32)
    (h0 : t.inRange v0) (h1 : t.inRange v1) :
    iota_minus t v0 v1 = some (v0 - v1) := by
  have hr := (inRange32_of_narrow hn h0).2
  obtain ⟨hsub, hv0, hv1⟩ := narrow_range_sub hw hn h0 h1
  simp only [iota_minus, hs, Bool.false_eq_true, if_false]
  rw [promote_eq_of_narrow hn, iota_difference_narrow hn]
  simp only [if_true]
  rw [CInt.convert_self (t := ⟨32, true⟩) (by norm_num) hv0,
    CInt.convert_self (t := ⟨32, true⟩) (by norm_num) hv1]
  rw [if_pos hsub, CInt.convert_self (t := ⟨32, true⟩) (by norm_num) hsub]

/-- Claim C5 (amended): `iota_minus` case by case — non-integral: plain
`v0 - v1`; signed integral: both operands widened to the difference type
and subtracted there, hence exact whenever the difference is representable
in it; unsigned integral of width ≥ 32 (not promoted): subtraction in the
unsigned domain modulo `2^width`, then converted to the signed difference
type; unsigned integral narrower than `int`: integer promotion makes the
subtraction a signed, exact one — not an unsigned-domain one. -/
theorem iota_minus_cases (t : CInt) (v0 v1 : Int) (sub : Int → Int → Int)
    (hstd : StdWidth t) (h0 : t.inRange v0) (h1 : t.inRange v1) :
    iota_minus_nonintegral sub v0 v1 = sub v0 v1 ∧
    (t.signed = true → (iota_difference t).inRange (v0 - v1) →
      iota_minus t v0 v1 = some (v0 - v1)) ∧
    (t.signed = false → 32 ≤ t.width →
      iota_minus t v0 v1
        = some ((iota_difference t).convert ((v0 - v1) % 2 ^ t.width))) ∧
    (t.signed = false → t.width < 32 → iota_minus t v0 v1 = some (v0 - v1)) := by
  have hw : 1 ≤ t.width := by rcases hstd with h | h | h | h <;> omega
  exact ⟨rfl,
    fun hs hD => iota_minus_signed_exact hstd hs h0 h1 hD,
    fun hs h32 => iota_minus_unsigned_wide hs h32 h0 h1,
    fun hs hn => iota_minus_unsigned_narrow hs hw hn h0 h1⟩

/-- Witness for claim C5 at the 8-bit unsigned type with operands
(5, 250): the promoted subtraction is exact, `iota_minus = -245`. -/
theorem iota_minus_cases_wit :
    iota_minus_nonintegral (fun a b : Int => a - b) 5 250 = (fun a b : Int => a - b) 5 250 ∧
    (CInt.signed ⟨8, false⟩ = true → (iota_difference ⟨8, false⟩).inRange ((5 : Int) - 250) →
      iota_minus ⟨8, false⟩ 5 250 = some ((5 : Int) - 250)) ∧
    (CInt.signed ⟨8, false⟩ = false → 32 ≤ CInt.width ⟨8, false⟩ →
      iota_minus ⟨8, false⟩ 5 250
        = some ((iota_difference ⟨8, false⟩).convert (((5 : Int) - 250) % 2 ^ CInt.width ⟨8, false⟩))) ∧
    (CInt.signed ⟨8, false⟩ = false → CInt.width ⟨8, false⟩ < 32 →
      iota_minus ⟨8, false⟩ 5 250 = some ((5 : Int) - 250)) :=
  iota_minus_cases ⟨8, false⟩ 5 250 (fun a b : Int => a - b) (by decide)
    (by decide) (by decide)

/-- Counterexample for claim C5 as stated: for the 8-bit unsigned type at
operands (5, 250) the code's subtraction is performed after integer
promotion to `int` and yields -245, whereas a subtraction "performed in
the unsigned domain first" followed by conversion to the distance type, as
the claim describes, would yield `(5 - 250) mod 256 = 11`. -/
theorem iota_minus_cases_cex :
    iota_minus ⟨8, false⟩ 5 250 = some (-245) ∧
    (iota_difference ⟨8, false⟩).convert (((5 : Int) - 250) % 2 ^ 8) = 11 ∧
    ((-245 : Int) ≠ 11) := by
  decide

/-- Claim C6: for an integral random-access value type, the resolved
difference type is the signed counterpart of the natural subtraction
result type (the promoted type) when that differs from the value type
itself; otherwise it is the smallest of the {8,16,32,64}-bit signed fast
integer types whose bit-width strictly exceeds that of the natural result
type, defaulting to the 64-bit one when none qualifies. -/
theorem iota_difference_resolution (t : CInt) :
    iota_difference t =
      if promote t = t then ⟨distSpecWidth t.width, true⟩
      else make_signed (promote t) := by
  unfold iota_difference distSpecWidth
  by_cases hp : promote t = t
  · rw [if_neg (by simp [hp]), if_pos hp, hp]
    by_cases h8 : t.width < 8
    · have h16 : t.width < 16 := by omega
      have h32 : t.width < 32 := by omega
      have h64 : t.width < 64 := by omega
      simp [List.filter, h8, h16, h32, h64]
    · by_cases h16 : t.width < 16
      · have h32 : t.width < 32 := by omega
        have h64 : t.width < 64 := by omega
        simp [List.filter, h8, h16, h32, h64]
      · by_cases h32 : t.width < 32
        · have h64 : t.width < 64 := by omega
          simp [List.filter, h8, h16, h32, h64]
        · by_cases h64 : t.width < 64
          · simp [List.filter, h8, h16, h32, h64]
          · simp [List.filter, h8, h16, h32, h64]
  · rw [if_pos (by simp [hp]), if_neg hp]

/-- Claim C7 (amended to widths below 64): for integral value types of
width 8, 16 or 32 the resolved difference type can hold
`max(Value) - min(Value)` without overflow. -/
theorem iota_difference_holds_span (t : CInt)
    (hstd : t.width = 8 ∨ t.width = 16 ∨ t.width = 32) :
    (iota_difference t).inRange (t.max - t.min) := by
  obtain ⟨w, s⟩ := t
  rcases hstd with hw | hw | hw <;> subst hw <;> cases s <;> decide

/-- Witness for claim C7 at the 8-bit unsigned type. -/
theorem iota_difference_holds_span_wit :
    (iota_difference ⟨8, false⟩).inRange (CInt.max ⟨8, false⟩ - CInt.min ⟨8, false⟩) :=
  iota_difference_holds_span ⟨8, false⟩ (by decide)

/-- Counterexample for claim C7 as stated: for the 64-bit unsigned type
the difference type is the 64-bit signed fast type, whose maximum
`2^63 - 1` cannot hold `max - min = 2^64 - 1`. -/
theorem iota_difference_span_cex :
    ¬ (iota_difference ⟨64, false⟩).inRange
        (CInt.max ⟨64, false⟩ - CInt.min ⟨64, false⟩) := by
  decide

theorem iota_advance_roundtrip {t : CInt} {a b d : Int} (hstd : StdWidth t)
    (h0 : t.inRange a) (h1 : t.inRange b)
    (hd : iota_minus t b a = some d) :
    iota_advance t a d = some b := by
  obtain ⟨w, s⟩ := t
  obtain ⟨ha, hb⟩ := h0
  obtain ⟨hc, hd2⟩ := h1
  rcases hstd with hw | hw | hw | hw <;> subst hw <;> cases s <;>
    norm_num [iota_minus, iota_advance, iota_difference, promote, intWidth,
      make_signed, usualArith, CInt.inRange, CInt.convert, CInt.min,
      CInt.max] at * <;>
    split_ifs at * <;>
    first
      | (simp only [Option.some.injEq] at *; omega)
      | omega
      | simp_all
      | (exfalso; omega)

/-- Claim C8: distance/seek round-trip — whenever `distance_to` from
position `a` to position `b` is defined (no UB) and yields `d`, seeking
`a` by `d` succeeds and lands on a position whose current value equals
`b`'s current value. -/
theorem iota_distance_seek_roundtrip (t : CInt) (a b : iota_view) (d : Int)
    (hstd : StdWidth t) (h0 : t.inRange a.value_) (h1 : t.inRange b.value_)
    (hd : iota_view.distance_to t a b = some d) :
    (iota_view.advance t a d).map iota_view.current
      = some (iota_view.current b) := by
  obtain ⟨va⟩ := a
  obtain ⟨vb⟩ := b
  dsimp only at h0 h1
  unfold iota_view.distance_to at hd
  dsimp only at hd
  have hr := iota_advance_roundtrip hstd h0 h1 hd
  unfold iota_view.advance
  rw [hr]
  rfl

/-- Witness for claim C8 at the 8-bit unsigned type: from position 250 to
position 5 the distance is -245 (via promoted signed subtraction), and
seeking 250 by -245 lands on 5. -/
theorem iota_distance_seek_roundtrip_wit :
    (iota_view.advance ⟨8, false⟩ ⟨250⟩ (-245)).map iota_view.current
      = some (iota_view.current ⟨5⟩) :=
  iota_distance_seek_roundtrip ⟨8, false⟩ ⟨250⟩ ⟨5⟩ (-245) (by decide)
    (by decide) (by decide) (by decide)
